import Mathlib

/-!
Verification of the time-series analytics core of a stock-comparison
dashboard (`src/app.py`).

The analytic core operates on a pandas `Series` of monthly closing
prices indexed by dates.  We embed such a series as a
`List (ℤ × ℚ)`: each element is a `(date, price)` pair, a date being a
day number and a price an exact rational (idealising IEEE floats).

Pandas arithmetic is total: dividing by zero yields `inf`/`-inf`/`NaN`
rather than raising.  We model a pandas float with the inductive type
`PF` (finite value, `+inf`, `-inf`, `NaN`).  Plain Python arithmetic
and indexing, by contrast, raise exceptions (`ZeroDivisionError`,
`IndexError`); functions whose source can raise are embedded in
`Except PyErr`.
-/

/-- A pandas floating-point cell: a finite value, an infinity, or NaN. -/
inductive PF where
  | val (q : ℚ)
  | pinf
  | ninf
  | nan
deriving DecidableEq, Repr

/-- Pandas-style division of two finite values: division by zero gives
a signed infinity (or NaN for `0/0`) instead of raising. -/
def pdiv (a b : ℚ) : PF :=
  if b = 0 then (if a = 0 then .nan else if 0 < a then .pinf else .ninf)
  else .val (a / b)

/-- Multiplication of a pandas float by the positive constant 100
(the `* 100` in `normalize_to_100`). -/
def pmul100 : PF → PF
  | .val q => .val (q * 100)
  | .pinf => .pinf
  | .ninf => .ninf
  | .nan => .nan

/-- Binary step of the pandas `Series.min()` reduction with its default
`skipna=True`: `NaN` is skipped, infinities participate in the order
`-inf < finite < +inf`. -/
def min2 : PF → PF → PF
  | .nan, y => y
  | x, .nan => x
  | .ninf, _ => .ninf
  | _, .ninf => .ninf
  | .val a, .val b => .val (min a b)
  | .val a, .pinf => .val a
  | .pinf, .val b => .val b
  | .pinf, .pinf => .pinf

/-- Pandas `Series.min()` (with `skipna=True`): the minimum of the
non-NaN entries, `NaN` when the series is empty or all-NaN. -/
def nanmin (l : List PF) : PF := l.foldl min2 .nan

/-- Exceptions the Python source can raise. -/
inductive PyErr where
  | indexError
  | zeroDivisionError
deriving DecidableEq, Repr

/-- `s.cummax()` continued with running maximum `m`. -/
def cummaxAux (m : ℚ) : List ℚ → List ℚ
  | [] => []
  | p :: ps => max m p :: cummaxAux (max m p) ps

/-- Pandas `s.cummax()`: at each index, the maximum of all entries up
to and including that index. -/
def cummax : List ℚ → List ℚ
  | [] => []
  | p :: ps => p :: cummaxAux p ps

/-- `normalize_to_100(s) = (s / s.iloc[0]) * 100` from `src/app.py`.
`s.iloc[0]` raises `IndexError` on an empty series; the elementwise
division is pandas division (division by zero yields `inf`/`NaN`). -/
def normalize_to_100 (s : List (ℤ × ℚ)) : Except PyErr (List (ℤ × PF)) :=
  match s with
  | [] => .error .indexError
  | (d0, p0) :: rest =>
      .ok (((d0, p0) :: rest).map (fun x => (x.1, pmul100 (pdiv x.2 p0))))

/-- `max_drawdown(s)` from `src/app.py`:
`cumulative_max = s.cummax(); drawdown = (s - cumulative_max) / cumulative_max;
return drawdown.min()`. -/
def max_drawdown (s : List (ℤ × ℚ)) : PF :=
  let prices := s.map Prod.snd
  let cm := cummax prices
  let drawdown := List.zipWith (fun p m => pdiv (p - m) m) prices cm
  nanmin drawdown

/-- `calculate_cagr(s)` from `src/app.py`:
`years = (s.index[-1] - s.index[0]).days / 365;
return (s.iloc[-1] / s.iloc[0]) ** (1 / years) - 1`.
Indexing an empty series raises `IndexError`; `1 / years` raises
`ZeroDivisionError` when `years == 0.0` (exactly when the first and
last dates coincide).  The float arithmetic is idealised over `ℝ`,
with `**` as real exponentiation. -/
noncomputable def calculate_cagr (s : List (ℤ × ℚ)) : Except PyErr ℝ :=
  match s with
  | [] => .error .indexError
  | (d0, p0) :: rest =>
      let lastPt := ((d0, p0) :: rest).getLast (List.cons_ne_nil _ _)
      let years : ℝ := ((lastPt.1 - d0 : ℤ) : ℝ) / 365
      if years = 0 then .error .zeroDivisionError
      else .ok (((lastPt.2 : ℝ) / (p0 : ℝ)) ^ (1 / years) - 1)

/-- `pd.concat([n1, n2], axis=1)` from `src/app.py`, for two series with
strictly increasing date indices: an outer join on dates, a missing
cell (`none`, pandas `NaN`) where one series lacks that date. -/
def outerJoin : List (ℤ × ℚ) → List (ℤ × ℚ) → List (ℤ × (Option ℚ × Option ℚ))
  | [], [] => []
  | [], (e, q) :: bs => (e, (none, some q)) :: outerJoin [] bs
  | (d, p) :: as_, [] => (d, (some p, none)) :: outerJoin as_ []
  | (d, p) :: as_, (e, q) :: bs =>
      if d < e then (d, (some p, none)) :: outerJoin as_ ((e, q) :: bs)
      else if e < d then (e, (none, some q)) :: outerJoin ((d, p) :: as_) bs
      else (d, (some p, some q)) :: outerJoin as_ bs
termination_by a b => a.length + b.length

/-- `diff = df[ticker1] - df[ticker2]` from `src/app.py` applied to the
concatenated frame: pointwise subtraction, `NaN` (here `none`) whenever
either side is missing. -/
def diffSeries (a b : List (ℤ × ℚ)) : List (ℤ × Option ℚ) :=
  (outerJoin a b).map (fun x =>
    (x.1, match x.2 with
          | (some p, some q) => some (p - q)
          | _ => none))

/-- Scaling a price series by a constant factor (used to state scale
invariance of normalization). -/
def scaleSeries (c : ℚ) (s : List (ℤ × ℚ)) : List (ℤ × ℚ) :=
  s.map (fun x => (x.1, c * x.2))

/-- The running peak of the spec: the maximum of the prices up to and
including index `i`. -/
def prefixMax (l : List ℚ) (i : ℕ) : ℚ :=
  (l.take (i + 1)).foldl max (l.headD 0)

/-- The drawdown at index `i` as the spec states it:
`(price[i] - peakSoFar) / peakSoFar` with the peak including index `i`. -/
def drawdownAt (s : List (ℤ × ℚ)) (i : ℕ) : ℚ :=
  let l := s.map Prod.snd
  (l.getD i 0 - prefixMax l i) / prefixMax l i

/-! ### Helper lemmas about folds, `cummax` and `nanmin` -/

theorem cummaxAux_length (m : ℚ) (l : List ℚ) : (cummaxAux m l).length = l.length := by
  induction l generalizing m with
  | nil => rfl
  | cons p ps ih => simp [cummaxAux, ih]

theorem cummax_length (l : List ℚ) : (cummax l).length = l.length := by
  cases l with
  | nil => rfl
  | cons p ps => simp [cummax, cummaxAux_length]

theorem init_le_foldl_max (a : ℚ) (l : List ℚ) : a ≤ l.foldl max a := by
  induction l generalizing a with
  | nil => simp
  | cons p ps ih => exact le_trans (le_max_left a p) (ih (max a p))

theorem le_foldl_max_of_mem (a x : ℚ) (l : List ℚ) (hx : x ∈ l) : x ≤ l.foldl max a := by
  induction l generalizing a with
  | nil => cases hx
  | cons p ps ih =>
      rcases List.mem_cons.mp hx with rfl | h
      · exact le_trans (le_max_right a x) (init_le_foldl_max _ ps)
      · exact ih (max a p) h

theorem foldl_max_mem (a : ℚ) (l : List ℚ) : l.foldl max a = a ∨ l.foldl max a ∈ l := by
  induction l generalizing a with
  | nil => exact Or.inl rfl
  | cons p ps ih =>
      rcases ih (max a p) with h | h
      · rcases max_choice a p with h2 | h2
        · rw [List.foldl_cons, h, h2]; exact Or.inl rfl
        · rw [List.foldl_cons, h, h2]; exact Or.inr (List.mem_cons_self _ _)
      · exact Or.inr (List.mem_cons_of_mem _ h)

theorem foldl_min_le_init (a : ℚ) (l : List ℚ) : l.foldl min a ≤ a := by
  induction l generalizing a with
  | nil => simp
  | cons p ps ih => exact le_trans (ih (min a p)) (min_le_left a p)

theorem foldl_min_le_of_mem (a x : ℚ) (l : List ℚ) (hx : x ∈ l) : l.foldl min a ≤ x := by
  induction l generalizing a with
  | nil => cases hx
  | cons p ps ih =>
      rcases List.mem_cons.mp hx with rfl | h
      · exact le_trans (foldl_min_le_init _ ps) (min_le_right a x)
      · exact ih (min a p) h

theorem foldl_min_mem (a : ℚ) (l : List ℚ) : l.foldl min a = a ∨ l.foldl min a ∈ l := by
  induction l generalizing a with
  | nil => exact Or.inl rfl
  | cons p ps ih =>
      rcases ih (min a p) with h | h
      · rcases min_choice a p with h2 | h2
        · rw [List.foldl_cons, h, h2]; exact Or.inl rfl
        · rw [List.foldl_cons, h, h2]; exact Or.inr (List.mem_cons_self _ _)
      · exact Or.inr (List.mem_cons_of_mem _ h)

theorem cummaxAux_getD (l : List ℚ) : ∀ (m : ℚ) (i : ℕ), i < l.length →
    (cummaxAux m l).getD i 0 = (l.take (i + 1)).foldl max m := by
  induction l with
  | nil => intro m i h; simp at h
  | cons p ps ih =>
      intro m i h
      cases i with
      | zero => simp [cummaxAux]
      | succ i =>
          simp only [cummaxAux, List.getD_cons_succ, List.take_succ_cons, List.foldl_cons]
          exact ih (max m p) i (by simpa using h)

theorem cummax_getD (l : List ℚ) (i : ℕ) (h : i < l.length) :
    (cummax l).getD i 0 = prefixMax l i := by
  cases l with
  | nil => simp at h
  | cons p ps =>
      cases i with
      | zero => simp [cummax, prefixMax]
      | succ i =>
          simp only [cummax, List.getD_cons_succ, prefixMax, List.take_succ_cons,
            List.headD_cons, List.foldl_cons, max_self]
          exact cummaxAux_getD ps p i (by simpa using h)

theorem getD_mem_take (l : List ℚ) : ∀ i, i < l.length → l.getD i 0 ∈ l.take (i + 1) := by
  induction l with
  | nil => intro i h; simp at h
  | cons p ps ih =>
      intro i h
      cases i with
      | zero => simp
      | succ i =>
          simp only [List.getD_cons_succ, List.take_succ_cons]
          exact List.mem_cons_of_mem _ (ih i (by simpa using h))

theorem prefixMax_pos (l : List ℚ) (hne : l ≠ []) (hp : ∀ x ∈ l, 0 < x) (i : ℕ) :
    0 < prefixMax l i := by
  unfold prefixMax
  have hh : 0 < l.headD 0 := by
    cases l with
    | nil => exact absurd rfl hne
    | cons p ps => exact hp p (List.mem_cons_self _ _)
  exact lt_of_lt_of_le hh (init_le_foldl_max _ _)

theorem getD_le_prefixMax (l : List ℚ) (i : ℕ) (h : i < l.length) :
    l.getD i 0 ≤ prefixMax l i := by
  unfold prefixMax
  exact le_foldl_max_of_mem _ _ _ (getD_mem_take l i h)

theorem foldl_min2_val (l : List ℚ) : ∀ a : ℚ,
    (l.map PF.val).foldl min2 (PF.val a) = PF.val (l.foldl min a) := by
  induction l with
  | nil => intro a; rfl
  | cons p ps ih => intro a; exact ih (min a p)

theorem nanmin_map_val (x : ℚ) (t : List ℚ) :
    nanmin ((x :: t).map PF.val) = PF.val (t.foldl min x) := by
  simp only [nanmin, List.map_cons, List.foldl_cons]
  exact foldl_min2_val t x

theorem nanmin_val_char (L : List ℚ) (hL : L ≠ []) :
    ∃ m, nanmin (L.map PF.val) = PF.val m ∧ m ∈ L ∧ ∀ x ∈ L, m ≤ x := by
  cases L with
  | nil => exact absurd rfl hL
  | cons x t =>
      refine ⟨t.foldl min x, nanmin_map_val x t, ?_, ?_⟩
      · rcases foldl_min_mem x t with h | h
        · rw [h]; exact List.mem_cons_self _ _
        · exact List.mem_cons_of_mem _ h
      · intro y hy
        rcases List.mem_cons.mp hy with rfl | h
        · exact foldl_min_le_init _ _
        · exact foldl_min_le_of_mem _ _ _ h

theorem max_drawdown_eq_map (s : List (ℤ × ℚ)) (hp : ∀ x ∈ s, 0 < x.2) :
    max_drawdown s =
      nanmin (((List.range s.length).map (drawdownAt s)).map PF.val) := by
  unfold max_drawdown
  show nanmin (List.zipWith (fun p m => pdiv (p - m) m)
      (s.map Prod.snd) (cummax (s.map Prod.snd))) = _
  congr 1
  have hpp : ∀ x ∈ s.map Prod.snd, 0 < x := by
    intro x hx
    rcases List.mem_map.mp hx with ⟨y, hy, rfl⟩
    exact hp y hy
  apply List.ext_getElem
  · simp [cummax_length]
  · intro i h1 h2
    have hi : i < s.length := by
      simpa [cummax_length] using h1
    have hilen : i < (s.map Prod.snd).length := by simpa using hi
    have hicm : i < (cummax (s.map Prod.snd)).length := by
      simpa [cummax_length] using hilen
    have hne : s.map Prod.snd ≠ [] := by
      intro hcon
      rw [hcon] at hilen
      simp at hilen
    rw [List.getElem_zipWith]
    simp only [List.getElem_map, List.getElem_range]
    have hcm : (cummax (s.map Prod.snd))[i] = prefixMax (s.map Prod.snd) i := by
      rw [← List.getD_eq_getElem _ 0 hicm]
      exact cummax_getD _ i hilen
    have hpr : s[i].2 = (s.map Prod.snd).getD i 0 := by
      rw [List.getD_eq_getElem _ 0 hilen, List.getElem_map]
    have hpos : 0 < prefixMax (s.map Prod.snd) i := prefixMax_pos _ hne hpp i
    rw [hcm, hpr]
    simp only [drawdownAt]
    rw [pdiv, if_neg (ne_of_gt hpos)]

theorem max_drawdown_char (s : List (ℤ × ℚ)) (hne : s ≠ []) (hp : ∀ x ∈ s, 0 < x.2) :
    ∃ m, max_drawdown s = PF.val m ∧
      (∃ i, i < s.length ∧ drawdownAt s i = m) ∧
      (∀ i, i < s.length → m ≤ drawdownAt s i) := by
  rw [max_drawdown_eq_map s hp]
  have hL : (List.range s.length).map (drawdownAt s) ≠ [] := by
    simp [List.length_pos.mp, hne]
  obtain ⟨m, hm, hmem, hle⟩ := nanmin_val_char _ hL
  refine ⟨m, hm, ?_, ?_⟩
  · rcases List.mem_map.mp hmem with ⟨i, hi, hdd⟩
    exact ⟨i, List.mem_range.mp hi, hdd⟩
  · intro i hi
    exact hle _ (List.mem_map.mpr ⟨i, List.mem_range.mpr hi, rfl⟩)

theorem outerJoin_eq_zipWith : ∀ (a b : List (ℤ × ℚ)),
    a.map Prod.fst = b.map Prod.fst →
    outerJoin a b = List.zipWith (fun x y => (x.1, (some x.2, some y.2))) a b := by
  intro a
  induction a with
  | nil =>
      intro b hb
      cases b with
      | nil => simp [outerJoin]
      | cons y bs => simp at hb
  | cons x as_ ih =>
      intro b hb
      cases b with
      | nil => simp at hb
      | cons y bs =>
          obtain ⟨x1, x2⟩ := x
          obtain ⟨y1, y2⟩ := y
          simp only [List.map_cons, List.cons.injEq] at hb
          obtain ⟨h1, h2⟩ := hb
          subst h1
          simp [outerJoin, ih bs h2]

theorem mem_fst_outerJoin : ∀ (a b : List (ℤ × ℚ)) (d : ℤ),
    d ∈ (outerJoin a b).map Prod.fst ↔
      d ∈ a.map Prod.fst ∨ d ∈ b.map Prod.fst := by
  intro a b
  induction a, b using outerJoin.induct with
  | case1 => simp [outerJoin]
  | case2 e q bs ih => intro d; simp [outerJoin, ih]
  | case3 d' p as_ ih => intro d; simp [outerJoin, ih]
  | case4 d' p as_ e q bs hlt ih =>
      intro d
      simp only [outerJoin, if_pos hlt, List.map_cons, List.mem_cons, ih]
      tauto
  | case5 d' p as_ e q bs hlt hgt ih =>
      intro d
      simp only [outerJoin, if_neg hlt, if_pos hgt, List.map_cons, List.mem_cons, ih]
      tauto
  | case6 d' p as_ e q bs hlt hgt ih =>
      intro d
      have he : e = d' := le_antisymm (not_lt.mp hlt) (not_lt.mp hgt)
      subst he
      simp only [outerJoin, if_neg hlt, if_neg hgt, List.map_cons, List.mem_cons, ih]
      tauto

theorem left_only_mem_outerJoin : ∀ (a b : List (ℤ × ℚ)) (d : ℤ) (p : ℚ),
    (d, p) ∈ a → d ∉ b.map Prod.fst → (d, (some p, none)) ∈ outerJoin a b := by
  intro a b
  induction a, b using outerJoin.induct with
  | case1 => intro d p hmem _; cases hmem
  | case2 e q bs ih => intro d p hmem _; cases hmem
  | case3 d' p' as_ ih =>
      intro d p hmem _
      simp only [outerJoin]
      rcases List.mem_cons.mp hmem with heq | h
      · obtain ⟨rfl, rfl⟩ := Prod.mk.inj heq
        exact List.mem_cons_self _ _
      · exact List.mem_cons_of_mem _ (ih d p h (by simp))
  | case4 d' p' as_ e q bs hlt ih =>
      intro d p hmem hnb
      simp only [outerJoin, if_pos hlt]
      rcases List.mem_cons.mp hmem with heq | h
      · obtain ⟨rfl, rfl⟩ := Prod.mk.inj heq
        exact List.mem_cons_self _ _
      · exact List.mem_cons_of_mem _ (ih d p h hnb)
  | case5 d' p' as_ e q bs hlt hgt ih =>
      intro d p hmem hnb
      simp only [outerJoin, if_neg hlt, if_pos hgt]
      refine List.mem_cons_of_mem _ (ih d p hmem ?_)
      intro hcon
      exact hnb (by simp only [List.map_cons, List.mem_cons]; exact Or.inr hcon)
  | case6 d' p' as_ e q bs hlt hgt ih =>
      intro d p hmem hnb
      have he : e = d' := le_antisymm (not_lt.mp hlt) (not_lt.mp hgt)
      subst he
      rcases List.mem_cons.mp hmem with heq | h
      · exfalso
        apply hnb
        simp only [List.map_cons, List.mem_cons]
        exact Or.inl (Prod.mk.inj heq).1
      · simp only [outerJoin, if_neg hlt, if_neg hgt]
        refine List.mem_cons_of_mem _ (ih d p h ?_)
        intro hcon
        exact hnb (by simp only [List.map_cons, List.mem_cons]; exact Or.inr hcon)

theorem right_only_mem_outerJoin : ∀ (a b : List (ℤ × ℚ)) (d : ℤ) (q : ℚ),
    (d, q) ∈ b → d ∉ a.map Prod.fst → (d, (none, some q)) ∈ outerJoin a b := by
  intro a b
  induction a, b using outerJoin.induct with
  | case1 => intro d q hmem _; cases hmem
  | case2 e q' bs ih =>
      intro d q hmem _
      simp only [outerJoin]
      rcases List.mem_cons.mp hmem with heq | h
      · obtain ⟨rfl, rfl⟩ := Prod.mk.inj heq
        exact List.mem_cons_self _ _
      · exact List.mem_cons_of_mem _ (ih d q h (by simp))
  | case3 d' p' as_ ih => intro d q hmem _; cases hmem
  | case4 d' p' as_ e q' bs hlt ih =>
      intro d q hmem hna
      simp only [outerJoin, if_pos hlt]
      refine List.mem_cons_of_mem _ (ih d q hmem ?_)
      intro hcon
      exact hna (by simp only [List.map_cons, List.mem_cons]; exact Or.inr hcon)
  | case5 d' p' as_ e q' bs hlt hgt ih =>
      intro d q hmem hna
      simp only [outerJoin, if_neg hlt, if_pos hgt]
      rcases List.mem_cons.mp hmem with heq | h
      · obtain ⟨rfl, rfl⟩ := Prod.mk.inj heq
        exact List.mem_cons_self _ _
      · exact List.mem_cons_of_mem _ (ih d q h hna)
  | case6 d' p' as_ e q' bs hlt hgt ih =>
      intro d q hmem hna
      have he : e = d' := le_antisymm (not_lt.mp hlt) (not_lt.mp hgt)
      subst he
      rcases List.mem_cons.mp hmem with heq | h
      · exfalso
        apply hna
        simp only [List.map_cons, List.mem_cons]
        exact Or.inl (Prod.mk.inj heq).1
      · simp only [outerJoin, if_neg hlt, if_neg hgt]
        refine List.mem_cons_of_mem _ (ih d q h ?_)
        intro hcon
        exact hna (by simp only [List.map_cons, List.mem_cons]; exact Or.inr hcon)

theorem diffSeries_eq_zipWith (a b : List (ℤ × ℚ))
    (hab : a.map Prod.fst = b.map Prod.fst) :
    diffSeries a b = List.zipWith (fun x y => (x.1, some (x.2 - y.2))) a b := by
  unfold diffSeries
  rw [outerJoin_eq_zipWith a b hab, List.map_zipWith]

/-! ### Claim theorems -/

/-- C1: for a series `s` with at least one point and positive first
price, `normalize_to_100(s)` succeeds with a series of the same length
and date index whose `i`-th value is `s[i]/s[0]*100`, and whose first
value is exactly `100`. -/
theorem normalize_to_100_spec (s : List (ℤ × ℚ)) (h : s ≠ [])
    (hp : 0 < (s.headD (0, 0)).2) :
    normalize_to_100 s =
      .ok (s.map (fun x => (x.1, PF.val (x.2 / (s.headD (0, 0)).2 * 100)))) ∧
    (s.map (fun x => (x.1, PF.val (x.2 / (s.headD (0, 0)).2 * 100)))).headD
        (0, PF.nan) = ((s.headD (0, 0)).1, PF.val 100) := by
  cases s with
  | nil => exact absurd rfl h
  | cons hd rest =>
      obtain ⟨d0, p0⟩ := hd
      simp only [List.headD_cons] at hp ⊢
      constructor
      · simp [normalize_to_100, pdiv, pmul100, hp.ne']
      · simp [div_self hp.ne']

/-- Witness for C1 at the concrete series `[(0, 2), (5, 3)]`. -/
theorem normalize_to_100_spec_witness :
    normalize_to_100 [((0:ℤ), (2:ℚ)), ((5:ℤ), (3:ℚ))] =
      .ok (([((0:ℤ), (2:ℚ)), ((5:ℤ), (3:ℚ))] : List (ℤ × ℚ)).map
        (fun x => (x.1, PF.val (x.2 / 2 * 100)))) ∧
    (([((0:ℤ), (2:ℚ)), ((5:ℤ), (3:ℚ))] : List (ℤ × ℚ)).map
        (fun x => (x.1, PF.val (x.2 / 2 * 100)))).headD (0, PF.nan)
      = ((0:ℤ), PF.val 100) :=
  normalize_to_100_spec _ (by simp) (by norm_num)

/-- C2: for a non-empty series of positive prices, `max_drawdown` is
the minimum over all indices of the drawdown
`(price[i] - peakSoFar)/peakSoFar`, the peak including index `i`
itself; on `[100, 50, 150]` it is `-0.5` and the drawdown at index 2
is `0`. -/
theorem max_drawdown_min_spec :
    (∀ s : List (ℤ × ℚ), s ≠ [] → (∀ x ∈ s, 0 < x.2) →
      ∃ m, max_drawdown s = PF.val m ∧
        (∃ i, i < s.length ∧ drawdownAt s i = m) ∧
        (∀ i, i < s.length → m ≤ drawdownAt s i)) ∧
    max_drawdown [((0:ℤ), (100:ℚ)), ((1:ℤ), (50:ℚ)), ((2:ℤ), (150:ℚ))] =
      PF.val (-1/2) ∧
    drawdownAt [((0:ℤ), (100:ℚ)), ((1:ℤ), (50:ℚ)), ((2:ℤ), (150:ℚ))] 2 = 0 := by
  refine ⟨max_drawdown_char, ?_, ?_⟩
  · norm_num [max_drawdown, nanmin, cummax, cummaxAux, min2, pdiv]
  · norm_num [drawdownAt, prefixMax]

/-- Witness for C2 at the concrete series `[(3, 4), (7, 2)]`. -/
theorem max_drawdown_min_spec_witness :
    ∃ m, max_drawdown [((3:ℤ), (4:ℚ)), ((7:ℤ), (2:ℚ))] = PF.val m ∧
      (∃ i, i < ([((3:ℤ), (4:ℚ)), ((7:ℤ), (2:ℚ))] : List (ℤ × ℚ)).length ∧
        drawdownAt [((3:ℤ), (4:ℚ)), ((7:ℤ), (2:ℚ))] i = m) ∧
      (∀ i, i < ([((3:ℤ), (4:ℚ)), ((7:ℤ), (2:ℚ))] : List (ℤ × ℚ)).length →
        m ≤ drawdownAt [((3:ℤ), (4:ℚ)), ((7:ℤ), (2:ℚ))] i) :=
  max_drawdown_min_spec.1 _ (by simp) (by norm_num)

/-- C3: for a series with at least two points, distinct first and last
dates and positive first price, `calculate_cagr` returns
`(lastPrice/firstPrice) ^ (1 / ((lastDate - firstDate)/365)) - 1`; on
`[100 at day 0, 121 at day 365]` it returns exactly `0.21`. -/
theorem calculate_cagr_spec :
    (∀ s : List (ℤ × ℚ), 2 ≤ s.length →
      (s.getLastD (0, 0)).1 ≠ (s.headD (0, 0)).1 →
      0 < (s.headD (0, 0)).2 →
      calculate_cagr s = .ok
        ((((s.getLastD (0, 0)).2 : ℝ) / ((s.headD (0, 0)).2 : ℝ)) ^
          (1 / ((((s.getLastD (0, 0)).1 - (s.headD (0, 0)).1 : ℤ) : ℝ) / 365))
          - 1)) ∧
    calculate_cagr [((0:ℤ), (100:ℚ)), ((365:ℤ), (121:ℚ))] = .ok (21/100) := by
  constructor
  · intro s h2 hd _hp
    cases s with
    | nil => simp at h2
    | cons hd0 rest =>
        obtain ⟨d0, p0⟩ := hd0
        simp only [List.headD_cons] at hd ⊢
        have hlast : ((d0, p0) :: rest).getLast (List.cons_ne_nil _ _) =
            rest.getLastD (d0, p0) := List.getLast_eq_getLastD _ _ _
        have hlastD : ((d0, p0) :: rest).getLastD (0, 0) =
            rest.getLastD (d0, p0) := List.getLastD_cons _ _ _
        rw [hlastD] at hd ⊢
        have hne : ¬ (((((rest.getLastD (d0, p0)).1 - d0 : ℤ) : ℝ)) / 365 = 0) := by
          intro hcon
          rcases div_eq_zero_iff.mp hcon with hzero | h365
          · apply hd
            have hz : ((rest.getLastD (d0, p0)).1 - d0 : ℤ) = 0 := by
              exact_mod_cast hzero
            omega
          · norm_num at h365
        simp only [calculate_cagr, hlast]
        rw [if_neg hne]
  · norm_num [calculate_cagr, List.getLast]

/-- Witness for C3 at the concrete series `[(0, 4), (365, 8)]`. -/
theorem calculate_cagr_spec_witness :
    calculate_cagr [((0:ℤ), (4:ℚ)), ((365:ℤ), (8:ℚ))] = .ok
      ((((8:ℚ) : ℝ) / ((4:ℚ) : ℝ)) ^
        (1 / ((((365:ℤ) - (0:ℤ) : ℤ) : ℝ) / 365)) - 1) :=
  calculate_cagr_spec.1 _ (by simp) (by decide) (by norm_num)

/-- C4 (code behavior at the failing inputs): on the empty series,
`calculate_cagr` raises `IndexError` and `max_drawdown` returns `NaN`;
on a single-point series, `calculate_cagr` raises `ZeroDivisionError`
and `max_drawdown` returns `0.0` — none of them fails with a named
`InsufficientData` error. -/
theorem short_series_code_behavior :
    calculate_cagr ([] : List (ℤ × ℚ)) = .error .indexError ∧
    calculate_cagr [((0:ℤ), (100:ℚ))] = .error .zeroDivisionError ∧
    max_drawdown ([] : List (ℤ × ℚ)) = PF.nan ∧
    max_drawdown [((0:ℤ), (100:ℚ))] = PF.val 0 := by
  refine ⟨rfl, ?_, rfl, ?_⟩
  · norm_num [calculate_cagr]
  · norm_num [max_drawdown, nanmin, cummax, cummaxAux, min2, pdiv]

/-- C5 (code behavior at the failing input): on a series whose first
value is zero, `normalize_to_100` returns non-finite values
(`NaN`, `+inf`) as a successful result instead of failing with a named
`InvalidInput` error; on the empty series it raises a generic
`IndexError`. -/
theorem normalize_nonfinite_behavior :
    normalize_to_100 [((0:ℤ), (0:ℚ)), ((1:ℤ), (50:ℚ))] =
      .ok [((0:ℤ), PF.nan), ((1:ℤ), PF.pinf)] ∧
    normalize_to_100 ([] : List (ℤ × ℚ)) = .error .indexError := by
  refine ⟨?_, rfl⟩
  norm_num [normalize_to_100, pmul100, pdiv]

theorem cummaxAux_sorted : ∀ (l : List ℚ) (m : ℚ),
    List.Chain (· ≤ ·) m l → cummaxAux m l = l := by
  intro l
  induction l with
  | nil => intro m _; rfl
  | cons p ps ih =>
      intro m hm
      rcases List.chain_cons.mp hm with ⟨h1, h2⟩
      simp only [cummaxAux, max_eq_right h1]
      rw [ih p h2]

theorem cummax_sorted (l : List ℚ) (h : List.Chain' (· ≤ ·) l) : cummax l = l := by
  cases l with
  | nil => rfl
  | cons p ps =>
      simp only [cummax]
      rw [cummaxAux_sorted ps p h]

theorem zipWith_self (f : ℚ → ℚ → PF) (l : List ℚ) :
    List.zipWith f l l = l.map (fun a => f a a) := by
  induction l with
  | nil => rfl
  | cons p ps ih => simp [ih]

theorem foldl_min2_val0 (L : List PF) (hL : ∀ y ∈ L, y = PF.val 0) :
    L.foldl min2 (PF.val 0) = PF.val 0 := by
  induction L with
  | nil => rfl
  | cons y ys ih =>
      have hy := hL y (List.mem_cons_self _ _)
      subst hy
      rw [List.foldl_cons]
      have hmin : min2 (PF.val 0) (PF.val 0) = PF.val 0 := by simp [min2]
      rw [hmin]
      exact ih (fun z hz => hL z (List.mem_cons_of_mem _ hz))

theorem foldl_min2_all_zero (L : List PF) (x : PF) (hL : ∀ y ∈ L, y = PF.val 0)
    (hne : L ≠ []) (hx : x = PF.nan ∨ x = PF.val 0) :
    L.foldl min2 x = PF.val 0 := by
  cases L with
  | nil => exact absurd rfl hne
  | cons y ys =>
      have hy := hL y (List.mem_cons_self _ _)
      subst hy
      rw [List.foldl_cons]
      have htail : ∀ z ∈ ys, z = PF.val 0 :=
        fun z hz => hL z (List.mem_cons_of_mem _ hz)
      rcases hx with rfl | rfl
      · exact foldl_min2_val0 ys htail
      · have hmin : min2 (PF.val 0) (PF.val 0) = PF.val 0 := by simp [min2]
        rw [hmin]
        exact foldl_min2_val0 ys htail

theorem nanmin_drawdown_increasing (l : List ℚ) (hmono : List.Chain' (· < ·) l)
    (hnn : ∀ y ∈ l, 0 ≤ y) (h2 : 2 ≤ l.length) :
    nanmin (List.zipWith (fun p m => pdiv (p - m) m) l (cummax l)) = PF.val 0 := by
  rw [cummax_sorted l (hmono.imp fun _ _ h => le_of_lt h), zipWith_self]
  cases l with
  | nil => simp at h2
  | cons p0 t =>
      cases t with
      | nil => simp at h2
      | cons p1 rest =>
          have hpw := List.chain'_iff_pairwise.mp hmono
          have hp0 : 0 ≤ p0 := hnn p0 (List.mem_cons_self _ _)
          have hpos : ∀ y ∈ p1 :: rest, 0 < y := by
            intro y hy
            exact lt_of_le_of_lt hp0 ((List.pairwise_cons.mp hpw).1 y hy)
          have hmap : (p1 :: rest).map (fun p => pdiv (p - p) p) =
              (p1 :: rest).map (fun _ => PF.val 0) := by
            apply List.map_congr_left
            intro y hy
            rw [sub_self, pdiv, if_neg (hpos y hy).ne']
            simp
          show List.foldl min2 PF.nan
            ((p0 :: p1 :: rest).map (fun p => pdiv (p - p) p)) = PF.val 0
          rw [List.map_cons, hmap, List.foldl_cons]
          apply foldl_min2_all_zero
          · intro y hy
            rcases List.mem_map.mp hy with ⟨z, _, rfl⟩
            rfl
          · simp
          · rw [sub_self, pdiv]
            by_cases h0 : p0 = 0
            · rw [if_pos h0, if_pos rfl]
              exact Or.inl rfl
            · rw [if_neg h0]
              right
              simp [min2]

/-- C6: when the two series share a date index, the difference is the
pointwise subtraction over that index; in general `pd.concat` performs
an explicit outer join — a date appears in the result iff it appears in
either input, and a date present in only one input yields a missing
value (`none`), so nothing is silently truncated. -/
theorem difference_outer_join_spec :
    (∀ a b : List (ℤ × ℚ), a.map Prod.fst = b.map Prod.fst →
      diffSeries a b = List.zipWith (fun x y => (x.1, some (x.2 - y.2))) a b) ∧
    (∀ (a b : List (ℤ × ℚ)) (d : ℤ),
      d ∈ (diffSeries a b).map Prod.fst ↔
        d ∈ a.map Prod.fst ∨ d ∈ b.map Prod.fst) ∧
    (∀ (a b : List (ℤ × ℚ)) (d : ℤ) (p : ℚ),
      (d, p) ∈ a → d ∉ b.map Prod.fst →
        (d, (none : Option ℚ)) ∈ diffSeries a b) ∧
    (∀ (a b : List (ℤ × ℚ)) (d : ℤ) (q : ℚ),
      (d, q) ∈ b → d ∉ a.map Prod.fst →
        (d, (none : Option ℚ)) ∈ diffSeries a b) := by
  refine ⟨diffSeries_eq_zipWith, ?_, ?_, ?_⟩
  · intro a b d
    have hfst : (diffSeries a b).map Prod.fst = (outerJoin a b).map Prod.fst := by
      unfold diffSeries
      rw [List.map_map]
      rfl
    rw [hfst, mem_fst_outerJoin]
  · intro a b d p hmem hnb
    have hoj := left_only_mem_outerJoin a b d p hmem hnb
    unfold diffSeries
    exact List.mem_map.mpr ⟨(d, (some p, none)), hoj, rfl⟩
  · intro a b d q hmem hna
    have hoj := right_only_mem_outerJoin a b d q hmem hna
    unfold diffSeries
    exact List.mem_map.mpr ⟨(d, (none, some q)), hoj, rfl⟩

/-- Witness for C6: aligned indices give pointwise subtraction, and a
date present only on one side gives a missing value. -/
theorem difference_outer_join_spec_witness :
    diffSeries [((0:ℤ), (1:ℚ)), ((1:ℤ), (3:ℚ))]
        [((0:ℤ), (10:ℚ)), ((1:ℤ), (5:ℚ))] =
      List.zipWith (fun x y => (x.1, some (x.2 - y.2)))
        [((0:ℤ), (1:ℚ)), ((1:ℤ), (3:ℚ))] [((0:ℤ), (10:ℚ)), ((1:ℤ), (5:ℚ))] ∧
    ((2:ℤ), (none : Option ℚ)) ∈ diffSeries [((2:ℤ), (1:ℚ))] [] :=
  ⟨difference_outer_join_spec.1 _ _ rfl,
   difference_outer_join_spec.2.2.1 _ [] 2 1 (List.mem_cons_self _ _) (by simp)⟩

/-- C7 counterexample: on the single-point constant series `[(0, 5)]`
`calculate_cagr` raises `ZeroDivisionError` rather than returning `0`,
and on the all-zero constant series `max_drawdown` returns `NaN`
rather than `0`. -/
theorem constant_series_claim_counterexample :
    calculate_cagr [((0:ℤ), (5:ℚ))] = .error .zeroDivisionError ∧
    calculate_cagr [((0:ℤ), (5:ℚ))] ≠ .ok 0 ∧
    max_drawdown [((0:ℤ), (0:ℚ)), ((365:ℤ), (0:ℚ))] = PF.nan ∧
    max_drawdown [((0:ℤ), (0:ℚ)), ((365:ℤ), (0:ℚ))] ≠ PF.val 0 := by
  have h1 : calculate_cagr [((0:ℤ), (5:ℚ))] = .error .zeroDivisionError := by
    norm_num [calculate_cagr]
  have h2 : max_drawdown [((0:ℤ), (0:ℚ)), ((365:ℤ), (0:ℚ))] = PF.nan := by
    norm_num [max_drawdown, nanmin, cummax, cummaxAux, min2, pdiv]
  refine ⟨h1, ?_, h2, ?_⟩
  · rw [h1]; simp
  · rw [h2]; simp

/-- C7 amended: for a constant series with positive value, at least two
points and distinct first and last dates, `max_drawdown` returns
exactly `0` and `calculate_cagr` returns exactly `0`. -/
theorem constant_series_metrics (c : ℚ) (hc : 0 < c) (s : List (ℤ × ℚ))
    (h2 : 2 ≤ s.length) (hconst : ∀ x ∈ s, x.2 = c)
    (hd : (s.getLastD (0, 0)).1 ≠ (s.headD (0, 0)).1) :
    max_drawdown s = PF.val 0 ∧ calculate_cagr s = .ok 0 := by
  constructor
  · have hne : s ≠ [] := by
      intro hcon
      rw [hcon] at h2
      simp at h2
    have hp : ∀ x ∈ s, 0 < x.2 := fun x hx => (hconst x hx) ▸ hc
    obtain ⟨m, hm, ⟨i, hi, hdi⟩, _⟩ := max_drawdown_char s hne hp
    have hallc : ∀ x ∈ s.map Prod.snd, x = c := by
      intro x hx
      rcases List.mem_map.mp hx with ⟨y, hy, rfl⟩
      exact hconst y hy
    have hlen : i < (s.map Prod.snd).length := by simpa using hi
    have hgd : (s.map Prod.snd).getD i 0 = c := by
      rw [List.getD_eq_getElem _ 0 hlen]
      exact hallc _ (List.getElem_mem _)
    have hpm : prefixMax (s.map Prod.snd) i = c := by
      unfold prefixMax
      have hhead : (s.map Prod.snd).headD 0 = c := by
        cases hs : s.map Prod.snd with
        | nil => rw [hs] at hlen; simp at hlen
        | cons z zs =>
            rw [List.headD_cons]
            exact hallc z (hs ▸ List.mem_cons_self _ _)
      rw [hhead]
      rcases foldl_max_mem c ((s.map Prod.snd).take (i + 1)) with h | h
      · exact h
      · exact hallc _ (List.take_subset _ _ h)
    have hzero : drawdownAt s i = 0 := by
      simp only [drawdownAt]
      rw [hgd, hpm, sub_self, zero_div]
    rw [hm, ← hdi, hzero]
  · cases s with
    | nil => simp at h2
    | cons hd0 rest =>
        obtain ⟨d0, p0⟩ := hd0
        simp only [List.headD_cons] at hd
        have hlast : ((d0, p0) :: rest).getLast (List.cons_ne_nil _ _) =
            rest.getLastD (d0, p0) := List.getLast_eq_getLastD _ _ _
        have hlastD : ((d0, p0) :: rest).getLastD (0, 0) =
            rest.getLastD (d0, p0) := List.getLastD_cons _ _ _
        rw [hlastD] at hd
        have hne : ¬ (((((rest.getLastD (d0, p0)).1 - d0 : ℤ) : ℝ)) / 365 = 0) := by
          intro hcon
          rcases div_eq_zero_iff.mp hcon with hzero | h365
          · apply hd
            have hz : ((rest.getLastD (d0, p0)).1 - d0 : ℤ) = 0 := by
              exact_mod_cast hzero
            omega
          · norm_num at h365
        have hp0 : p0 = c := hconst (d0, p0) (List.mem_cons_self _ _)
        have hplast : (rest.getLastD (d0, p0)).2 = c := by
          refine hconst _ ?_
          rw [← hlast]
          exact List.getLast_mem _
        simp only [calculate_cagr, hlast]
        rw [if_neg hne, hplast, hp0]
        have hcc : ((c : ℝ) / (c : ℝ)) = 1 := div_self (by exact_mod_cast hc.ne')
        rw [hcc, Real.one_rpow, sub_self]

/-- Witness for C7 at the constant series `[(0, 5), (365, 5)]`. -/
theorem constant_series_metrics_witness :
    max_drawdown [((0:ℤ), (5:ℚ)), ((365:ℤ), (5:ℚ))] = PF.val 0 ∧
    calculate_cagr [((0:ℤ), (5:ℚ)), ((365:ℤ), (5:ℚ))] = .ok 0 :=
  constant_series_metrics 5 (by norm_num) _ (by simp)
    (by
      intro x hx
      simp only [List.mem_cons, List.not_mem_nil, or_false] at hx
      rcases hx with rfl | rfl <;> rfl) (by decide)

/-- C8 counterexample: on the single-point series with price `0` (a
valid non-negative price series, trivially strictly increasing),
`max_drawdown` returns `NaN`, not `0`. -/
theorem single_zero_point_drawdown_counterexample :
    max_drawdown [((0:ℤ), (0:ℚ))] = PF.nan ∧ PF.nan ≠ PF.val 0 := by
  constructor
  · norm_num [max_drawdown, nanmin, cummax, cummaxAux, min2, pdiv]
  · simp

/-- C8 amended: for a strictly increasing series of non-negative prices
with at least two points, `max_drawdown` returns exactly `0`; and for a
single-point series with positive price it also returns `0`. -/
theorem increasing_series_drawdown :
    (∀ s : List (ℤ × ℚ), List.Chain' (· < ·) (s.map Prod.snd) →
      (∀ x ∈ s, 0 ≤ x.2) → 2 ≤ s.length → max_drawdown s = PF.val 0) ∧
    (∀ (d : ℤ) (p : ℚ), 0 < p → max_drawdown [(d, p)] = PF.val 0) := by
  constructor
  · intro s hmono hnn h2
    have hnn' : ∀ y ∈ s.map Prod.snd, 0 ≤ y := by
      intro y hy
      rcases List.mem_map.mp hy with ⟨x, hx, rfl⟩
      exact hnn x hx
    have h2' : 2 ≤ (s.map Prod.snd).length := by simpa using h2
    show nanmin (List.zipWith (fun p m => pdiv (p - m) m) (s.map Prod.snd)
        (cummax (s.map Prod.snd))) = PF.val 0
    exact nanmin_drawdown_increasing _ hmono hnn' h2'
  · intro d p hp
    show nanmin (List.zipWith (fun x m => pdiv (x - m) m) [p] (cummax [p])) = PF.val 0
    simp [cummax, cummaxAux, nanmin, min2, pdiv, hp.ne']

/-- Witness for C8 at `[(0, 1), (30, 2), (60, 4)]` and the single point
`(0, 7)`. -/
theorem increasing_series_drawdown_witness :
    max_drawdown [((0:ℤ), (1:ℚ)), ((30:ℤ), (2:ℚ)), ((60:ℤ), (4:ℚ))] = PF.val 0 ∧
    max_drawdown [((0:ℤ), (7:ℚ))] = PF.val 0 :=
  ⟨increasing_series_drawdown.1 _ (by norm_num) (by norm_num) (by simp),
   increasing_series_drawdown.2 0 7 (by norm_num)⟩

/-- C9: on a non-empty series of strictly positive prices,
`max_drawdown` returns a finite value in the interval `[-1, 0]`. -/
theorem max_drawdown_bounded (s : List (ℤ × ℚ)) (hne : s ≠ [])
    (hp : ∀ x ∈ s, 0 < x.2) :
    ∃ m, max_drawdown s = PF.val m ∧ -1 ≤ m ∧ m ≤ 0 := by
  obtain ⟨m, hm, ⟨i, hi, hdi⟩, _⟩ := max_drawdown_char s hne hp
  have hppos : ∀ y ∈ s.map Prod.snd, 0 < y := by
    intro y hy
    rcases List.mem_map.mp hy with ⟨x, hx, rfl⟩
    exact hp x hx
  have hmapne : s.map Prod.snd ≠ [] := by
    intro hcon
    exact hne (List.map_eq_nil_iff.mp hcon)
  have hlen : i < (s.map Prod.snd).length := by simpa using hi
  have hMpos : 0 < prefixMax (s.map Prod.snd) i := prefixMax_pos _ hmapne hppos i
  have hle : (s.map Prod.snd).getD i 0 ≤ prefixMax (s.map Prod.snd) i :=
    getD_le_prefixMax _ i hlen
  have hgd : 0 < (s.map Prod.snd).getD i 0 := by
    rw [List.getD_eq_getElem _ 0 hlen]
    exact hppos _ (List.getElem_mem _)
  refine ⟨m, hm, ?_, ?_⟩
  · rw [← hdi]
    simp only [drawdownAt]
    rw [le_div_iff₀ hMpos]
    linarith
  · rw [← hdi]
    simp only [drawdownAt]
    rw [div_nonpos_iff]
    right
    constructor
    · linarith
    · linarith

/-- Witness for C9 at the concrete series `[(0, 4), (7, 2)]`. -/
theorem max_drawdown_bounded_witness :
    ∃ m, max_drawdown [((0:ℤ), (4:ℚ)), ((7:ℤ), (2:ℚ))] = PF.val m ∧
      -1 ≤ m ∧ m ≤ 0 :=
  max_drawdown_bounded _ (by simp) (by norm_num)

/-- C10: normalization is scale invariant — scaling every price by a
positive constant does not change the normalized series — and
idempotent: the normalized series (as plain rationals) normalizes to
itself. -/
theorem normalize_scale_invariant_idempotent :
    (∀ (s : List (ℤ × ℚ)) (c : ℚ), s ≠ [] → (s.headD (0, 0)).2 ≠ 0 → 0 < c →
      normalize_to_100 (scaleSeries c s) = normalize_to_100 s) ∧
    (∀ s : List (ℤ × ℚ), s ≠ [] → 0 < (s.headD (0, 0)).2 →
      ∃ r : List (ℤ × ℚ),
        normalize_to_100 s = .ok (r.map (fun x => (x.1, PF.val x.2))) ∧
        normalize_to_100 r = .ok (r.map (fun x => (x.1, PF.val x.2)))) := by
  constructor
  · intro s c h h0 hc
    cases s with
    | nil => exact absurd rfl h
    | cons hd0 rest =>
        obtain ⟨d0, p0⟩ := hd0
        simp only [List.headD_cons] at h0
        have hcp : c * p0 ≠ 0 := mul_ne_zero hc.ne' h0
        have hsc : scaleSeries c ((d0, p0) :: rest) =
            (d0, c * p0) :: scaleSeries c rest := rfl
        rw [hsc]
        simp only [normalize_to_100]
        congr 1
        rw [← hsc]
        unfold scaleSeries
        rw [List.map_map]
        apply List.map_congr_left
        intro x _
        simp only [Function.comp]
        congr 1
        rw [pdiv, pdiv, if_neg hcp, if_neg h0, mul_div_mul_left _ _ hc.ne']
  · intro s h hp
    cases s with
    | nil => exact absurd rfl h
    | cons hd0 rest =>
        obtain ⟨d0, p0⟩ := hd0
        simp only [List.headD_cons] at hp
        refine ⟨((d0, p0) :: rest).map (fun x => (x.1, x.2 / p0 * 100)), ?_, ?_⟩
        · simp only [normalize_to_100]
          congr 1
          rw [List.map_map]
          apply List.map_congr_left
          intro x _
          simp only [Function.comp]
          rw [pdiv, if_neg hp.ne']
          rfl
        · have hr : ((d0, p0) :: rest).map (fun x => (x.1, x.2 / p0 * 100)) =
              (d0, p0 / p0 * 100) :: rest.map (fun x => (x.1, x.2 / p0 * 100)) := rfl
          rw [hr]
          simp only [normalize_to_100]
          congr 1
          rw [← hr]
          have h100 : p0 / p0 * 100 = (100 : ℚ) := by
            rw [div_self hp.ne']
            norm_num
          rw [h100]
          apply List.map_congr_left
          intro y _
          congr 1
          rw [pdiv, if_neg (by norm_num : (100 : ℚ) ≠ 0)]
          simp only [pmul100]
          rw [div_mul_cancel₀ _ (by norm_num : (100 : ℚ) ≠ 0)]

/-- Witness for C10 at the series `[(0, 2)]` with scale factor `3`. -/
theorem normalize_scale_invariant_idempotent_witness :
    normalize_to_100 (scaleSeries 3 [((0:ℤ), (2:ℚ))]) =
      normalize_to_100 [((0:ℤ), (2:ℚ))] ∧
    ∃ r : List (ℤ × ℚ),
      normalize_to_100 [((0:ℤ), (2:ℚ))] = .ok (r.map (fun x => (x.1, PF.val x.2))) ∧
      normalize_to_100 r = .ok (r.map (fun x => (x.1, PF.val x.2))) :=
  ⟨normalize_scale_invariant_idempotent.1 _ 3 (by simp) (by norm_num) (by norm_num),
   normalize_scale_invariant_idempotent.2 _ (by simp) (by norm_num)⟩
